import Mathlib

/-!
Verification of the config-collector pipeline (`collector.py`).

Strings are modelled as `List Char` (Python `str`), bytes as `Nat` values
below 256, and Python exceptions as `Option` (`none` means an exception was
raised and caught by the caller's `try`/`except`).

Modelling notes, applying to the whole file:
  - `parse_qs` / `parse_qsl` are modelled without percent-escape decoding and
    without the `+`-to-space replacement; the model is faithful on query
    strings that contain neither `%` nor `+` (all inputs appearing in the
    theorems below are of this form).
  - regex character classes are modelled over their ASCII members (Python's
    `\s` and `\d` with `re.UNICODE` additionally match some non-ASCII
    characters); no theorem below depends on non-ASCII class members.
  - `urlparse` on a netloc containing `[` or `]` is modelled as a parse
    error: CPython raises for unbalanced brackets and for any bracketed host
    that is not a valid IPv6/IPvFuture literal; the model conservatively
    maps every bracketed netloc to the error case.  No claim concerns
    bracketed (IPv6) hosts.
-/

/-- `l.take pat.length == pat`: Python `str.startswith`. -/
def startsWithL (l pat : List Char) : Bool :=
  l.take pat.length == pat

/-- Python `pat in l` (substring containment) for single strings. -/
def hasSub (pat : List Char) : List Char → Bool
  | [] => pat.isEmpty
  | c :: rest => startsWithL (c :: rest) pat || hasSub pat rest

/-! ## Decoder: `decode_base64_content` (collector.py lines 13-19)

The source pads the input with `'=' * (-len(s) % 4)` and calls
`base64.b64decode(...).decode('utf-8')`; any exception yields `""`.
`base64.b64decode` (with `validate=False`, on a `str` argument) first
ASCII-encodes the string (raising on any code point >= 128), then decodes
via `binascii.a2b_base64` in non-strict mode: characters outside the
base64 alphabet are discarded, a `=` reached with at least two sextets in
the current group ends the decode (emitting the partial group, ignoring
the rest), and leftover groups of size 1, 2 or 3 at end of input raise. -/

/-- The standard base64 alphabet, in value order. -/
def b64Alphabet : List Char :=
  ['A','B','C','D','E','F','G','H','I','J','K','L','M','N','O','P',
   'Q','R','S','T','U','V','W','X','Y','Z',
   'a','b','c','d','e','f','g','h','i','j','k','l','m','n','o','p',
   'q','r','s','t','u','v','w','x','y','z',
   '0','1','2','3','4','5','6','7','8','9','+','/']

/-- Character of a sextet value (0-63). -/
def b64Char (v : Nat) : Char := b64Alphabet.getD v 'A'

/-- Sextet value of an alphabet character (position in the alphabet). -/
def b64Val (c : Char) : Nat := b64Alphabet.findIdx (fun x => x == c)

/-- Membership in the base64 alphabet. -/
def isB64 (c : Char) : Bool := b64Alphabet.contains c

/-- The three bytes packed in a full sextet quadruple. -/
def quadBytes (v1 v2 v3 v4 : Nat) : List Nat :=
  [v1 * 4 + v2 / 16, v2 % 16 * 16 + v3 / 4, v3 % 4 * 64 + v4]

/-- The single byte packed in a two-sextet group (`XX==`). -/
def pad2Byte (v1 v2 : Nat) : Nat := v1 * 4 + v2 / 16

/-- The two bytes packed in a three-sextet group (`XXX=`). -/
def pad3Bytes (v1 v2 v3 : Nat) : List Nat :=
  [v1 * 4 + v2 / 16, v2 % 16 * 16 + v3 / 4]

/-- State of `a2b_base64`: the sextets of the current (incomplete) group. -/
inductive B64Quad where
  | q0
  | q1 (v1 : Nat)
  | q2 (v1 v2 : Nat)
  | q3 (v1 v2 v3 : Nat)

/-- Non-strict `binascii.a2b_base64`: scan the characters, discarding ones
outside the alphabet; `=` with two or three sextets pending emits the
partial group and stops; a pending group at end of input is an error. -/
def b64decodeAux : List Char → B64Quad → List Nat → Option (List Nat)
  | [], .q0, acc => some acc
  | [], .q1 _, _ => none
  | [], .q2 _ _, _ => none
  | [], .q3 _ _ _, _ => none
  | c :: rest, q, acc =>
    if isB64 c then
      match q with
      | .q0 => b64decodeAux rest (.q1 (b64Val c)) acc
      | .q1 v1 => b64decodeAux rest (.q2 v1 (b64Val c)) acc
      | .q2 v1 v2 => b64decodeAux rest (.q3 v1 v2 (b64Val c)) acc
      | .q3 v1 v2 v3 => b64decodeAux rest .q0 (acc ++ quadBytes v1 v2 v3 (b64Val c))
    else if c == '=' then
      match q with
      | .q2 v1 v2 => some (acc ++ [pad2Byte v1 v2])
      | .q3 v1 v2 v3 => some (acc ++ pad3Bytes v1 v2 v3)
      | q' => b64decodeAux rest q' acc
    else b64decodeAux rest q acc

/-- `base64.b64decode` on a `str`: ASCII-encode (error on any code point
at or above 128), then `a2b_base64`. -/
def b64decodeBytes (s : List Char) : Option (List Nat) :=
  if s.all (fun c => c.toNat < 128) then b64decodeAux s .q0 [] else none

/-- `base64.b64encode` of a byte sequence (used only to state the
round-trip property; the source never encodes). -/
def b64encode : List Nat → List Char
  | [] => []
  | [b1] => [b64Char (b1 / 4), b64Char (b1 % 4 * 16), '=', '=']
  | [b1, b2] => [b64Char (b1 / 4), b64Char (b1 % 4 * 16 + b2 / 16),
                 b64Char (b2 % 16 * 4), '=']
  | b1 :: b2 :: b3 :: rest =>
      b64Char (b1 / 4) :: b64Char (b1 % 4 * 16 + b2 / 16) ::
      b64Char (b2 % 16 * 4 + b3 / 64) :: b64Char (b3 % 64) :: b64encode rest

/-- Number of `=` padding characters `b64encode` appends for `n` bytes. -/
def b64PadLen (n : Nat) : Nat := (3 - n % 3) % 3

/-- UTF-8 encoding of one code point (standard 1-4 byte forms). -/
def utf8EncodeChar (n : Nat) : List Nat :=
  if n < 0x80 then [n]
  else if n < 0x800 then [0xC0 + n / 64, 0x80 + n % 64]
  else if n < 0x10000 then [0xE0 + n / 4096, 0x80 + n / 64 % 64, 0x80 + n % 64]
  else [0xF0 + n / 262144, 0x80 + n / 4096 % 64, 0x80 + n / 64 % 64, 0x80 + n % 64]

/-- UTF-8 encoding of a string (Python `str.encode('utf-8')`). -/
def utf8Encode (s : List Char) : List Nat :=
  (s.map (fun c => utf8EncodeChar c.toNat)).flatten

/-- Step of strict UTF-8 decoding for a two-byte form: the lead byte `b`
is in 0xC2-0xDF, one continuation byte follows. -/
def utf8Dec2 (b : Nat) : List Nat → Option (Nat × List Nat)
  | c1 :: rest2 =>
    if 0x80 ≤ c1 ∧ c1 < 0xC0 then some ((b - 0xC0) * 64 + (c1 - 0x80), rest2)
    else none
  | [] => none

/-- Step of strict UTF-8 decoding for a three-byte form: the lead byte `b`
is in 0xE0-0xEF; rejects overlong forms and surrogates. -/
def utf8Dec3 (b : Nat) : List Nat → Option (Nat × List Nat)
  | c1 :: c2 :: rest2 =>
    if (0x80 ≤ c1 ∧ c1 < 0xC0) ∧ (0x80 ≤ c2 ∧ c2 < 0xC0) then
      let n := (b - 0xE0) * 4096 + (c1 - 0x80) * 64 + (c2 - 0x80)
      if 0x800 ≤ n ∧ ¬(0xD800 ≤ n ∧ n < 0xE000) then some (n, rest2) else none
    else none
  | _ => none

/-- Step of strict UTF-8 decoding for a four-byte form: the lead byte `b`
is in 0xF0-0xF4; rejects overlong forms and code points above 0x10FFFF. -/
def utf8Dec4 (b : Nat) : List Nat → Option (Nat × List Nat)
  | c1 :: c2 :: c3 :: rest2 =>
    if (0x80 ≤ c1 ∧ c1 < 0xC0) ∧ (0x80 ≤ c2 ∧ c2 < 0xC0) ∧ (0x80 ≤ c3 ∧ c3 < 0xC0) then
      let n := (b - 0xF0) * 262144 + (c1 - 0x80) * 4096 + (c2 - 0x80) * 64 + (c3 - 0x80)
      if 0x10000 ≤ n ∧ n < 0x110000 then some (n, rest2) else none
    else none
  | _ => none

/-- One code point of strict UTF-8 decoding (Python `bytes.decode('utf-8')`):
from lead byte `b` and the remaining bytes, the code point and the bytes
after it, or `none` on a malformed sequence (stray continuation byte,
truncated sequence, overlong form, surrogate, or value above 0x10FFFF). -/
def utf8DecStep (b : Nat) (rest : List Nat) : Option (Nat × List Nat) :=
  if b < 0x80 then some (b, rest)
  else if b < 0xC2 then none
  else if b < 0xE0 then utf8Dec2 b rest
  else if b < 0xF0 then utf8Dec3 b rest
  else if b < 0xF5 then utf8Dec4 b rest
  else none

/-- Strict UTF-8 decoding of a byte sequence; `none` models
`UnicodeDecodeError`. -/
def utf8Decode : List Nat → Option (List Nat)
  | [] => some []
  | b :: rest =>
    match h : utf8DecStep b rest with
    | none => none
    | some (n, rest2) => (utf8Decode rest2).map (fun t => n :: t)
termination_by l => l.length
decreasing_by
  have hle : rest2.length ≤ rest.length := by
    simp only [utf8DecStep, utf8Dec2, utf8Dec3, utf8Dec4] at h
    repeat' split at h
    all_goals simp_all
    all_goals omega
  simp only [List.length_cons]
  omega

/-- Body of `decode_base64_content`'s `try` block: pad with
`'=' * (-len % 4)`, base64-decode, UTF-8-decode; `none` models a raised
exception. -/
def decode_base64_core (s : List Char) : Option (List Char) :=
  let padded := s ++ List.replicate ((4 - s.length % 4) % 4) '='
  match b64decodeBytes padded with
  | none => none
  | some bytes =>
    match utf8Decode bytes with
    | none => none
    | some cps => some (cps.map Char.ofNat)

/-- `decode_base64_content` (collector.py lines 13-19): the `except`
branch returns the empty string. -/
def decode_base64_content (s : List Char) : List Char :=
  (decode_base64_core s).getD []

/-- Log events emitted by `decode_base64_content`: the source contains no
logging call in either the `try` or the `except` branch, so the function
never emits an event. -/
def decode_base64_content_logs (_s : List Char) : List (List Char) := []

/-! Basic facts about the base64 alphabet. -/

/-- The base64 text of `text` with its last `j` padding characters removed:
a "valid Base64 payload from which `j` trailing `=` have been removed". -/
def strippedPayload (text : List Char) (j : Nat) : List Char :=
  (b64encode (utf8Encode text)).take ((b64encode (utf8Encode text)).length - j)

/-! ## Extractor (collector.py lines 29-37)

The source runs `re.findall(r'(vless|vmess)://[^\s\'"<>]+', content)` and
adds each element of the result to a set.  Because the pattern contains one
capture group, Python's `findall` returns the list of group captures — the
scheme word `vless` or `vmess` — not the full matched substrings. -/

/-- Characters excluded by the class `[^\s'"<>]` (ASCII members of `\s`
plus the four listed characters). -/
def isExcludedChar (c : Char) : Bool :=
  c == ' ' || c == '\t' || c == '\n' || c == '\r' || c == '\x0b' ||
  c == '\x0c' || c == '\'' || c == '"' || c == '<' || c == '>'

/-- Attempt of the pattern `(vless|vmess)://[^\s\'"<>]+` at the head of `l`:
on success, the capture of group 1 and the length of the full match
(8 scheme characters plus the maximal nonempty run of allowed characters). -/
def tryMatchAt (l : List Char) : Option (List Char × Nat) :=
  if startsWithL l ("vless://".data) then
    let run := (l.drop 8).takeWhile (fun c => !(isExcludedChar c))
    if run.isEmpty then none else some ("vless".data, 8 + run.length)
  else if startsWithL l ("vmess://".data) then
    let run := (l.drop 8).takeWhile (fun c => !(isExcludedChar c))
    if run.isEmpty then none else some ("vmess".data, 8 + run.length)
  else none

/-- Left-to-right scan of `re.findall`: at each position try the pattern;
on a match, record group 1 and resume after the match, otherwise advance
one character.  `fuel` bounds the recursion; every step consumes at least
one character, so `fuel = content.length` never runs out. -/
def scanAux : Nat → List Char → List (List Char)
  | 0, _ => []
  | _ + 1, [] => []
  | fuel + 1, c :: rest =>
    match tryMatchAt (c :: rest) with
    | some (g, n) => g :: scanAux fuel ((c :: rest).drop n)
    | none => scanAux fuel rest

/-- `re.findall(r'(vless|vmess)://[^\s\'"<>]+', content)` (line 35). -/
def findall_scheme (content : List Char) : List (List Char) :=
  scanAux content.length content

/-- Per-source body of `get_configs_from_sources` (lines 29-37): if neither
scheme literal occurs in the fetched text, decode it as Base64 first, then
extract all pattern matches (group captures). -/
def get_configs_from_one (content : List Char) : List (List Char) :=
  let content :=
    if !hasSub ("vmess://".data) content && !hasSub ("vless://".data) content then
      decode_base64_content content
    else content
  findall_scheme content

/-- The members of the set `all_configs` accumulated by
`get_configs_from_sources` over the fetched contents (set semantics:
only membership is used below). -/
def extract_all (contents : List (List Char)) : List (List Char) :=
  (contents.map get_configs_from_one).flatten

/-! ## Validator+Scorer: `score_and_filter_config` (collector.py lines 42-89)

The source checks `config.startswith("vless://")`, then parses with
`urllib.parse.urlparse` / `parse_qs` and applies the reject rules and score
bonuses; any exception inside the `try` block (notably `ValueError` from
`parsed_url.port` on a non-numeric or out-of-range port, or from `urlsplit`
on a bracketed netloc) yields 0.

`urlparse` first removes the unsafe characters tab, CR and LF from the URL;
for an input starting with `vless://` the netloc is the longest run after
the 8 scheme characters containing no `/`, `?` or `#`; the fragment is
everything after the first `#` of the remainder, and the query is
everything after the first `?` of what precedes the fragment. -/

/-- Removal of `\t`, `\r`, `\n` performed by `urlsplit`. -/
def stripCtl (c : List Char) : List Char :=
  c.filter (fun x => !(x == '\t') && !(x == '\r') && !(x == '\n'))

/-- The URL after the `vless://` scheme marker. -/
def urlRest (c : List Char) : List Char := (stripCtl c).drop 8

/-- `parsed_url.netloc`: up to the first `/`, `?` or `#`. -/
def netlocOf (c : List Char) : List Char :=
  (urlRest c).takeWhile (fun x => !(x == '/') && !(x == '?') && !(x == '#'))

/-- The path-query-fragment part following the netloc. -/
def afterNetloc (c : List Char) : List Char :=
  (urlRest c).drop (netlocOf c).length

/-- `parsed_url.query`: after the first `?` of the part before the first `#`. -/
def queryOf (c : List Char) : List Char :=
  (((afterNetloc c).takeWhile (fun x => !(x == '#'))).dropWhile
    (fun x => !(x == '?'))).drop 1

/-- `parse_qsl(query)` with the modelling caveats of the header: split on
`&`, skip empty segments, split each segment at its first `=`, skip
segments without `=` and segments with an empty value. -/
def parse_qsl (q : List Char) : List (List Char × List Char) :=
  (q.splitOn '&').filterMap (fun seg =>
    if seg.isEmpty then none
    else
      let name := seg.takeWhile (fun x => !(x == '='))
      let rest := seg.dropWhile (fun x => !(x == '='))
      match rest with
      | [] => none
      | _ :: value => if value.isEmpty then none else some (name, value))

/-- `params.get(k, [''])[0]`: the first value listed for key `k` in the
`parse_qs` dictionary, or the empty string when the key is absent. -/
def getFirstD (ps : List (List Char × List Char)) (k : List Char) : List Char :=
  match ps.find? (fun p => p.1 == k) with
  | some p => p.2
  | none => []

/-- Truthiness of `params.get(k)`: the key is present (`parse_qs` only
stores nonempty value lists). -/
def hasParam (ps : List (List Char × List Char)) (k : List Char) : Bool :=
  (ps.find? (fun p => p.1 == k)).isSome

/-- The `parse_qs` mapping of a descriptor's query string. -/
def paramsOf (c : List Char) : List (List Char × List Char) :=
  parse_qsl (queryOf c)

/-- `params.get('security', [''])[0]` (line 54). -/
def securityParamOf (c : List Char) : List Char :=
  getFirstD (paramsOf c) ("security".data)

/-- `params.get('type', [''])[0]` (line 57). -/
def transportOf (c : List Char) : List Char :=
  getFirstD (paramsOf c) ("type".data)

/-- `params.get('serviceName', [''])[0]` (line 62). -/
def serviceNameParamOf (c : List Char) : List Char :=
  getFirstD (paramsOf c) ("serviceName".data)

/-- `params.get('host', [''])[0]` (line 66). -/
def hostParamOf (c : List Char) : List Char :=
  getFirstD (paramsOf c) ("host".data)

/-- `urlsplit` raises `ValueError` when the netloc contains brackets
(unbalanced brackets, or a bracketed host that is not a valid IPv6 /
IPvFuture literal; the model maps every bracketed netloc to the error). -/
def bracketErr (c : List Char) : Bool :=
  (netlocOf c).contains '[' || (netlocOf c).contains ']'

/-- The host-port part of the netloc: after the last `@`. -/
def hostinfoOf (c : List Char) : List Char :=
  ((netlocOf c).reverse.takeWhile (fun x => !(x == '@'))).reverse

/-- `parsed_url.hostname`: before the first `:` of the hostinfo,
lowercased. -/
def hostnameOf (c : List Char) : List Char :=
  ((hostinfoOf c).takeWhile (fun x => !(x == ':'))).map Char.toLower

/-- The port substring: after the first `:` of the hostinfo. -/
def portStrOf (c : List Char) : List Char :=
  ((hostinfoOf c).dropWhile (fun x => !(x == ':'))).drop 1

/-- `parsed_url.port`: `some none` when no port is given, `some (some v)`
for a digit string with value at most 65535, `none` when accessing the
property raises `ValueError` (non-digits, or out of range). -/
def portOf (c : List Char) : Option (Option Nat) :=
  let ps := portStrOf c
  if ps.isEmpty then some none
  else if ps.all (fun d => d.isDigit) then
    let v := ps.foldl (fun a d => a * 10 + (d.toNat - 48)) 0
    if v ≤ 65535 then some (some v) else none
  else none

/-- `re.match(r'^\d{1,3}\.\d{1,3}\.\d{1,3}\.\d{1,3}$', hostname)`:
exactly four dot-separated groups of one to three digits. -/
def isIPv4 (h : List Char) : Bool :=
  let parts := h.splitOn '.'
  parts.length == 4 &&
    parts.all (fun p => !p.isEmpty && p.length ≤ 3 && p.all (fun d => d.isDigit))

/-- `any(ddns in hostname for ddns in ['.ddns.net', '.xyz', '.pw'])`. -/
def isDdnsHost (h : List Char) : Bool :=
  hasSub (".ddns.net".data) h || hasSub (".xyz".data) h || hasSub (".pw".data) h

/-- `score_and_filter_config` (lines 42-89).  0 means reject; the reject
rules and bonuses follow the source line by line, with the two exception
sources (`urlsplit` bracket validation at line 50 and the `.port` property
at line 73) mapped to 0 where they arise. -/
def score_and_filter_config (config : List Char) : Nat :=
  if !startsWithL config ("vless://".data) then 0
  else if bracketErr config then 0
  else if !(securityParamOf config == "tls".data) then 0
  else if !(transportOf config == "ws".data || transportOf config == "grpc".data) then 0
  else if transportOf config == "grpc".data && (serviceNameParamOf config).isEmpty then 0
  else if transportOf config == "ws".data && (hostParamOf config).isEmpty then 0
  else
    match portOf config with
    | none => 0
    | some port? =>
      10 + (if port? == some 443 then 10 else 0)
        + (if !(hostnameOf config).isEmpty && !isIPv4 (hostnameOf config) &&
            !isDdnsHost (hostnameOf config) then 20 else 0)
        + (if hasParam (paramsOf config) ("sni".data) ||
            hasParam (paramsOf config) ("host".data) then 5 else 0)

/-! ## Pipeline: `main` (collector.py lines 101-133)

`main` iterates over the set `unique_configs`; the iteration order of a
Python `str` set is implementation-defined (it varies across processes
with hash randomization), so the model takes the enumeration as an
explicit list `enum` whose elements come from the extracted set.
For each config with positive score it appends
`{'id': config.split('@')[0], 'score': ..., 'config': ...}`; the list is
then sorted stably by score descending (`list.sort(key=..., reverse=True)`)
and walked front to back keeping the first item of each id. -/

/-- An element of `scored_configs`: the dict
`{'id': ..., 'score': ..., 'config': ...}` of line 113. -/
structure ScoredConfig where
  id : List Char
  score : Nat
  config : List Char
deriving DecidableEq

/-- `config.split('@')[0]` (line 112): the part before the first `@`,
the whole string when `@` does not occur. -/
def server_id (config : List Char) : List Char :=
  config.takeWhile (fun x => !(x == '@'))

/-- The `scored_configs` list built by the loop of lines 107-113 from the
enumeration `enum` of `unique_configs`. -/
def scored_configs (enum : List (List Char)) : List ScoredConfig :=
  enum.filterMap (fun config =>
    let score := score_and_filter_config config
    if score > 0 then some ⟨server_id config, score, config⟩ else none)

/-- Stable insertion for descending-by-score order: the new element goes
in front of the first element with score not above its own. -/
def insertDesc (x : ScoredConfig) : List ScoredConfig → List ScoredConfig
  | [] => [x]
  | y :: ys => if y.score ≤ x.score then x :: y :: ys else y :: insertDesc x ys

/-- `scored_configs.sort(key=lambda x: x['score'], reverse=True)`
(line 116): Python's sort is stable, and a stable sort by a key is a
unique function of its input, so stable insertion sort models it
exactly. -/
def sortDesc : List ScoredConfig → List ScoredConfig
  | [] => []
  | x :: xs => insertDesc x (sortDesc xs)

/-- The loop of lines 121-124 keeping the first item of each id
(`seen_ids`), modelled on the items themselves. -/
def dedupe_walk : List ScoredConfig → List (List Char) → List ScoredConfig
  | [], _ => []
  | x :: xs, seen =>
    if x.id ∈ seen then dedupe_walk xs seen
    else x :: dedupe_walk xs (x.id :: seen)

/-- Sort then first-occurrence walk: the deduplication of lines 116-124. -/
def dedupe (l : List ScoredConfig) : List ScoredConfig :=
  dedupe_walk (sortDesc l) []

/-- `final_configs` (lines 119-124): the retained config strings, in
order. -/
def final_configs (enum : List (List Char)) : List (List Char) :=
  (dedupe (scored_configs enum)).map (fun x => x.config)

/-- The maximum score among the items of `l` whose id is `i`. -/
def maxScoreFor (l : List ScoredConfig) (i : List Char) : Nat :=
  ((l.filter (fun x => x.id == i)).map (fun x => x.score)).foldr max 0

/-! ## Lemmas and claim theorems -/
theorem utf8Decode_nil : utf8Decode [] = some [] := by rw [utf8Decode]

theorem utf8Decode_step_some {b : Nat} {rest : List Nat} {n : Nat} {rest2 : List Nat}
    (h : utf8DecStep b rest = some (n, rest2)) :
    utf8Decode (b :: rest) = (utf8Decode rest2).map (fun t => n :: t) := by
  rw [utf8Decode]
  split <;> simp_all

theorem b64Alphabet_spec : ∀ v : Fin 64,
    b64Val (b64Char v.val) = v.val ∧ isB64 (b64Char v.val) = true ∧
    (b64Char v.val).toNat < 128 := by decide

theorem b64Val_b64Char {v : Nat} (h : v < 64) : b64Val (b64Char v) = v :=
  (b64Alphabet_spec ⟨v, h⟩).1

theorem isB64_b64Char {v : Nat} (h : v < 64) : isB64 (b64Char v) = true :=
  (b64Alphabet_spec ⟨v, h⟩).2.1

theorem b64Char_toNat_lt {v : Nat} (h : v < 64) : (b64Char v).toNat < 128 :=
  (b64Alphabet_spec ⟨v, h⟩).2.2

theorem quadBytes_encode {b1 b2 b3 : Nat} (h1 : b1 < 256) (h2 : b2 < 256)
    (h3 : b3 < 256) :
    quadBytes (b1 / 4) (b1 % 4 * 16 + b2 / 16) (b2 % 16 * 4 + b3 / 64) (b3 % 64)
      = [b1, b2, b3] := by
  simp only [quadBytes, List.cons.injEq, and_true]
  refine ⟨by omega, by omega, by omega⟩

theorem pad2Byte_encode {b1 : Nat} (h1 : b1 < 256) :
    pad2Byte (b1 / 4) (b1 % 4 * 16) = b1 := by
  simp only [pad2Byte]; omega

theorem pad3Bytes_encode {b1 b2 : Nat} (h1 : b1 < 256) (h2 : b2 < 256) :
    pad3Bytes (b1 / 4) (b1 % 4 * 16 + b2 / 16) (b2 % 16 * 4) = [b1, b2] := by
  simp only [pad3Bytes, List.cons.injEq, and_true]
  refine ⟨by omega, by omega⟩

theorem b64decodeAux_chunk {b1 b2 b3 : Nat} (h1 : b1 < 256) (h2 : b2 < 256)
    (h3 : b3 < 256) (rest : List Char) (acc : List Nat) :
    b64decodeAux (b64Char (b1 / 4) :: b64Char (b1 % 4 * 16 + b2 / 16) ::
      b64Char (b2 % 16 * 4 + b3 / 64) :: b64Char (b3 % 64) :: rest) .q0 acc
      = b64decodeAux rest .q0 (acc ++ [b1, b2, b3]) := by
  have e1 := isB64_b64Char (show b1 / 4 < 64 by omega)
  have e2 := isB64_b64Char (show b1 % 4 * 16 + b2 / 16 < 64 by omega)
  have e3 := isB64_b64Char (show b2 % 16 * 4 + b3 / 64 < 64 by omega)
  have e4 := isB64_b64Char (show b3 % 64 < 64 by omega)
  have v1 := b64Val_b64Char (show b1 / 4 < 64 by omega)
  have v2 := b64Val_b64Char (show b1 % 4 * 16 + b2 / 16 < 64 by omega)
  have v3 := b64Val_b64Char (show b2 % 16 * 4 + b3 / 64 < 64 by omega)
  have v4 := b64Val_b64Char (show b3 % 64 < 64 by omega)
  simp only [b64decodeAux, e1, e2, e3, e4, if_true, v1, v2, v3, v4,
    quadBytes_encode h1 h2 h3]

theorem b64decode_b64encode (bytes : List Nat) (hb : ∀ b ∈ bytes, b < 256) :
    ∀ acc, b64decodeAux (b64encode bytes) .q0 acc = some (acc ++ bytes) := by
  induction bytes using b64encode.induct with
  | case1 => intro acc; simp [b64encode, b64decodeAux]
  | case2 b1 =>
    intro acc
    have h1 : b1 < 256 := hb b1 (by simp)
    have e1 := isB64_b64Char (show b1 / 4 < 64 by omega)
    have e2 := isB64_b64Char (show b1 % 4 * 16 < 64 by omega)
    have v1 := b64Val_b64Char (show b1 / 4 < 64 by omega)
    have v2 := b64Val_b64Char (show b1 % 4 * 16 < 64 by omega)
    have hpad : isB64 '=' = false := by decide
    simp [b64encode, b64decodeAux, e1, e2, v1, v2, hpad, pad2Byte_encode h1]
  | case3 b1 b2 =>
    intro acc
    have h1 : b1 < 256 := hb b1 (by simp)
    have h2 : b2 < 256 := hb b2 (by simp)
    have e1 := isB64_b64Char (show b1 / 4 < 64 by omega)
    have e2 := isB64_b64Char (show b1 % 4 * 16 + b2 / 16 < 64 by omega)
    have e3 := isB64_b64Char (show b2 % 16 * 4 < 64 by omega)
    have v1 := b64Val_b64Char (show b1 / 4 < 64 by omega)
    have v2 := b64Val_b64Char (show b1 % 4 * 16 + b2 / 16 < 64 by omega)
    have v3 := b64Val_b64Char (show b2 % 16 * 4 < 64 by omega)
    have hpad : isB64 '=' = false := by decide
    simp [b64encode, b64decodeAux, e1, e2, e3, v1, v2, v3, hpad,
      pad3Bytes_encode h1 h2]
  | case4 b1 b2 b3 rest ih =>
    intro acc
    have h1 : b1 < 256 := hb b1 (by simp)
    have h2 : b2 < 256 := hb b2 (by simp)
    have h3 : b3 < 256 := hb b3 (by simp)
    have hrest : ∀ b ∈ rest, b < 256 := fun b h => hb b (by simp [h])
    rw [show b64encode (b1 :: b2 :: b3 :: rest) =
      b64Char (b1 / 4) :: b64Char (b1 % 4 * 16 + b2 / 16) ::
      b64Char (b2 % 16 * 4 + b3 / 64) :: b64Char (b3 % 64) :: b64encode rest
      from rfl]
    rw [b64decodeAux_chunk h1 h2 h3, ih hrest]
    simp

theorem b64encode_len_mod (bytes : List Nat) : (b64encode bytes).length % 4 = 0 := by
  induction bytes using b64encode.induct with
  | case1 => simp [b64encode]
  | case2 b1 => simp [b64encode]
  | case3 b1 b2 => simp [b64encode]
  | case4 b1 b2 b3 rest ih =>
    simp only [b64encode, List.length_cons]
    omega

theorem b64encode_len_pos (bytes : List Nat) (h : bytes ≠ []) :
    4 ≤ (b64encode bytes).length := by
  induction bytes using b64encode.induct with
  | case1 => simp at h
  | case2 b1 => simp [b64encode]
  | case3 b1 b2 => simp [b64encode]
  | case4 b1 b2 b3 rest ih => simp [b64encode]

theorem b64PadLen_le (n : Nat) : b64PadLen n ≤ 2 := by
  simp only [b64PadLen]; omega

theorem b64encode_drop_pad (bytes : List Nat) (j : Nat)
    (hj : j ≤ b64PadLen bytes.length) :
    (b64encode bytes).drop ((b64encode bytes).length - j) = List.replicate j '=' := by
  induction bytes using b64encode.induct with
  | case1 =>
    have : j = 0 := by simp [b64PadLen] at hj; omega
    simp [this, b64encode]
  | case2 b1 =>
    have hj2 : j ≤ 2 := le_trans hj (b64PadLen_le _)
    match j, hj2 with
    | 0, _ => simp [b64encode]
    | 1, _ => simp [b64encode]
    | 2, _ => simp [b64encode]
  | case3 b1 b2 =>
    have hj1 : j ≤ 1 := by
      simpa [b64PadLen] using hj
    match j, hj1 with
    | 0, _ => simp [b64encode]
    | 1, _ => simp [b64encode]
  | case4 b1 b2 b3 rest ih =>
    have hpad : b64PadLen (b1 :: b2 :: b3 :: rest).length = b64PadLen rest.length := by
      simp [b64PadLen]; omega
    rw [hpad] at hj
    rcases Nat.eq_zero_or_pos j with hz | hpos
    · subst hz; simp [List.drop_length]
    · have hrest : rest ≠ [] := by
        intro h; subst h; simp [b64PadLen] at hj; omega
      have hlen : 4 ≤ (b64encode rest).length := b64encode_len_pos rest hrest
      have hjle : j ≤ (b64encode rest).length := by
        have := b64PadLen_le rest.length; omega
      have hsplit : b64encode (b1 :: b2 :: b3 :: rest) =
          [b64Char (b1 / 4), b64Char (b1 % 4 * 16 + b2 / 16),
           b64Char (b2 % 16 * 4 + b3 / 64), b64Char (b3 % 64)] ++ b64encode rest :=
        rfl
      rw [hsplit]
      have hlen4 : ([b64Char (b1 / 4), b64Char (b1 % 4 * 16 + b2 / 16),
           b64Char (b2 % 16 * 4 + b3 / 64), b64Char (b3 % 64)] ++
           b64encode rest).length = 4 + (b64encode rest).length := by
        simp only [List.length_append, List.length_cons, List.length_nil]
      rw [hlen4]
      have harith : 4 + (b64encode rest).length - j =
          ([b64Char (b1 / 4), b64Char (b1 % 4 * 16 + b2 / 16),
            b64Char (b2 % 16 * 4 + b3 / 64), b64Char (b3 % 64)] : List Char).length
          + ((b64encode rest).length - j) := by simp; omega
      rw [harith, List.drop_append]
      exact ih hj

theorem b64encode_ascii (bytes : List Nat) (hb : ∀ b ∈ bytes, b < 256) :
    ∀ c ∈ b64encode bytes, c.toNat < 128 := by
  induction bytes using b64encode.induct with
  | case1 => simp [b64encode]
  | case2 b1 =>
    have h1 : b1 < 256 := hb b1 (by simp)
    intro c hc
    simp only [b64encode, List.mem_cons, List.not_mem_nil, or_false] at hc
    rcases hc with h | h | h | h <;> subst h
    · exact b64Char_toNat_lt (by omega)
    · exact b64Char_toNat_lt (by omega)
    · decide
    · decide
  | case3 b1 b2 =>
    have h1 : b1 < 256 := hb b1 (by simp)
    have h2 : b2 < 256 := hb b2 (by simp)
    intro c hc
    simp only [b64encode, List.mem_cons, List.not_mem_nil, or_false] at hc
    rcases hc with h | h | h | h <;> subst h
    · exact b64Char_toNat_lt (by omega)
    · exact b64Char_toNat_lt (by omega)
    · exact b64Char_toNat_lt (by omega)
    · decide
  | case4 b1 b2 b3 rest ih =>
    have h1 : b1 < 256 := hb b1 (by simp)
    have h2 : b2 < 256 := hb b2 (by simp)
    have h3 : b3 < 256 := hb b3 (by simp)
    have hrest : ∀ b ∈ rest, b < 256 := fun b h => hb b (by simp [h])
    intro c hc
    rw [show b64encode (b1 :: b2 :: b3 :: rest) =
      b64Char (b1 / 4) :: b64Char (b1 % 4 * 16 + b2 / 16) ::
      b64Char (b2 % 16 * 4 + b3 / 64) :: b64Char (b3 % 64) :: b64encode rest
      from rfl] at hc
    simp only [List.mem_cons] at hc
    rcases hc with h | h | h | h | h
    · subst h; exact b64Char_toNat_lt (by omega)
    · subst h; exact b64Char_toNat_lt (by omega)
    · subst h; exact b64Char_toNat_lt (by omega)
    · subst h; exact b64Char_toNat_lt (by omega)
    · exact ih hrest c h

theorem utf8EncodeChar_lt256 {n : Nat} (h : n < 1114112) :
    ∀ b ∈ utf8EncodeChar n, b < 256 := by
  intro b hb
  simp only [utf8EncodeChar] at hb
  split at hb
  · simp only [List.mem_cons, List.not_mem_nil, or_false] at hb
    omega
  · split at hb
    · simp only [List.mem_cons, List.not_mem_nil, or_false] at hb
      rcases hb with h' | h' <;> omega
    · split at hb
      · simp only [List.mem_cons, List.not_mem_nil, or_false] at hb
        rcases hb with h' | h' | h' <;> omega
      · simp only [List.mem_cons, List.not_mem_nil, or_false] at hb
        rcases hb with h' | h' | h' | h' <;> omega

theorem utf8Encode_lt256 (s : List Char) : ∀ b ∈ utf8Encode s, b < 256 := by
  intro b hb
  simp only [utf8Encode, List.mem_flatten, List.mem_map] at hb
  obtain ⟨l, ⟨c, _, hl⟩, hbl⟩ := hb
  subst hl
  have hv := c.valid
  simp only [UInt32.isValidChar, Nat.isValidChar] at hv
  have hn : c.toNat < 1114112 := by
    show c.val.toNat < 1114112
    omega
  exact utf8EncodeChar_lt256 hn b hbl

theorem utf8DecStep_encode1 {n : Nat} (rest : List Nat) (h : n < 128) :
    utf8DecStep n rest = some (n, rest) := by
  simp only [utf8DecStep]
  rw [if_pos h]

theorem utf8DecStep_encode2 {n : Nat} (rest : List Nat) (h1 : 128 ≤ n)
    (h2 : n < 2048) :
    utf8DecStep (0xC0 + n / 64) ((0x80 + n % 64) :: rest) = some (n, rest) := by
  simp only [utf8DecStep]
  rw [if_neg (by omega), if_neg (by omega), if_pos (by omega)]
  simp only [utf8Dec2]
  rw [if_pos (by omega)]
  simp only [Option.some.injEq, Prod.mk.injEq, and_true]
  omega

theorem utf8DecStep_encode3 {n : Nat} (rest : List Nat) (h1 : 2048 ≤ n)
    (h2 : n < 65536) (h3 : ¬(55296 ≤ n ∧ n < 57344)) :
    utf8DecStep (0xE0 + n / 4096) ((0x80 + n / 64 % 64) :: (0x80 + n % 64) :: rest)
      = some (n, rest) := by
  simp only [utf8DecStep]
  rw [if_neg (by omega), if_neg (by omega), if_neg (by omega), if_pos (by omega)]
  simp only [utf8Dec3]
  rw [if_pos (by omega)]
  have hn : (0xE0 + n / 4096 - 0xE0) * 4096 + (0x80 + n / 64 % 64 - 0x80) * 64 +
      (0x80 + n % 64 - 0x80) = n := by omega
  simp only [hn]
  rw [if_pos (by omega)]

theorem utf8DecStep_encode4 {n : Nat} (rest : List Nat) (h1 : 65536 ≤ n)
    (h2 : n < 1114112) :
    utf8DecStep (0xF0 + n / 262144)
      ((0x80 + n / 4096 % 64) :: (0x80 + n / 64 % 64) :: (0x80 + n % 64) :: rest)
      = some (n, rest) := by
  simp only [utf8DecStep]
  rw [if_neg (by omega), if_neg (by omega), if_neg (by omega), if_neg (by omega),
    if_pos (by omega)]
  simp only [utf8Dec4]
  rw [if_pos (by omega)]
  have hn : (0xF0 + n / 262144 - 0xF0) * 262144 + (0x80 + n / 4096 % 64 - 0x80) * 4096 +
      (0x80 + n / 64 % 64 - 0x80) * 64 + (0x80 + n % 64 - 0x80) = n := by omega
  simp only [hn]
  rw [if_pos (by omega)]

theorem utf8Decode_encodeChar {n : Nat} (rest : List Nat) (h1 : n < 1114112)
    (h2 : ¬(55296 ≤ n ∧ n < 57344)) :
    utf8Decode (utf8EncodeChar n ++ rest) = (utf8Decode rest).map (fun t => n :: t) := by
  rcases Nat.lt_or_ge n 0x80 with hA | hA
  · rw [show utf8EncodeChar n = [n] by
      simp only [utf8EncodeChar]; rw [if_pos hA]]
    rw [List.cons_append, List.nil_append,
      utf8Decode_step_some (utf8DecStep_encode1 rest hA)]
  · rcases Nat.lt_or_ge n 0x800 with hB | hB
    · rw [show utf8EncodeChar n = [0xC0 + n / 64, 0x80 + n % 64] by
        simp only [utf8EncodeChar]; rw [if_neg (by omega), if_pos hB]]
      rw [List.cons_append, List.cons_append, List.nil_append,
        utf8Decode_step_some (utf8DecStep_encode2 rest hA hB)]
    · rcases Nat.lt_or_ge n 0x10000 with hC | hC
      · rw [show utf8EncodeChar n = [0xE0 + n / 4096, 0x80 + n / 64 % 64, 0x80 + n % 64] by
          simp only [utf8EncodeChar]; rw [if_neg (by omega), if_neg (by omega), if_pos hC]]
        rw [List.cons_append, List.cons_append, List.cons_append, List.nil_append,
          utf8Decode_step_some (utf8DecStep_encode3 rest hB hC h2)]
      · rw [show utf8EncodeChar n =
            [0xF0 + n / 262144, 0x80 + n / 4096 % 64, 0x80 + n / 64 % 64, 0x80 + n % 64] by
          simp only [utf8EncodeChar]
          rw [if_neg (by omega), if_neg (by omega), if_neg (by omega)]]
        rw [List.cons_append, List.cons_append, List.cons_append, List.cons_append,
          List.nil_append,
          utf8Decode_step_some (utf8DecStep_encode4 rest hC h1)]

theorem utf8Decode_utf8Encode (s : List Char) :
    utf8Decode (utf8Encode s) = some (s.map Char.toNat) := by
  induction s with
  | nil =>
    rw [show utf8Encode [] = [] by simp [utf8Encode], utf8Decode_nil]
    simp
  | cons c t ih =>
    rw [show utf8Encode (c :: t) = utf8EncodeChar c.toNat ++ utf8Encode t by
      simp [utf8Encode]]
    have hv := c.valid
    simp only [UInt32.isValidChar, Nat.isValidChar] at hv
    have h1 : c.toNat < 1114112 := by show c.val.toNat < 1114112; omega
    have h2 : ¬(55296 ≤ c.toNat ∧ c.toNat < 57344) := by
      show ¬(55296 ≤ c.val.toNat ∧ c.val.toNat < 57344); omega
    rw [utf8Decode_encodeChar _ h1 h2, ih]
    simp

theorem b64decodeBytes_encode (bytes : List Nat) (hb : ∀ b ∈ bytes, b < 256) :
    b64decodeBytes (b64encode bytes) = some bytes := by
  unfold b64decodeBytes
  rw [if_pos (by
    rw [List.all_eq_true]
    intro c hc
    simpa using b64encode_ascii bytes hb c hc)]
  rw [b64decode_b64encode bytes hb []]
  simp

theorem decode_base64_content_of_stripped (text : List Char) (j : Nat)
    (hj : j ≤ b64PadLen (utf8Encode text).length) :
    decode_base64_content (strippedPayload text j) = text := by
  have hbytes : ∀ b ∈ utf8Encode text, b < 256 := utf8Encode_lt256 text
  have hmod : (b64encode (utf8Encode text)).length % 4 = 0 := b64encode_len_mod _
  have hj2 : j ≤ 2 := le_trans hj (b64PadLen_le _)
  have hjL : j ≤ (b64encode (utf8Encode text)).length := by
    rcases Nat.eq_zero_or_pos j with hz | hpos
    · omega
    · have hne : utf8Encode text ≠ [] := by
        intro he
        rw [he] at hj
        simp [b64PadLen] at hj
        omega
      have := b64encode_len_pos (utf8Encode text) hne
      omega
  have hlen : (strippedPayload text j).length =
      (b64encode (utf8Encode text)).length - j := by
    simp [strippedPayload, List.length_take]
  have hcount : (4 - (strippedPayload text j).length % 4) % 4 = j := by
    rw [hlen]; omega
  have hpadded : strippedPayload text j ++
      List.replicate ((4 - (strippedPayload text j).length % 4) % 4) '=' =
      b64encode (utf8Encode text) := by
    rw [hcount, ← b64encode_drop_pad (utf8Encode text) j hj]
    exact List.take_append_drop _ _
  simp only [decode_base64_content, decode_base64_core]
  rw [hpadded, b64decodeBytes_encode _ hbytes]
  simp only [utf8Decode_utf8Encode, Option.getD_some, List.map_map]
  have hmapid : List.map (Char.ofNat ∘ Char.toNat) text = List.map id text :=
    List.map_congr_left (fun c _ => Char.ofNat_toNat c)
  rw [hmapid, List.map_id]

theorem tryMatchAt_group {l g : List Char} {n : Nat}
    (h : tryMatchAt l = some (g, n)) :
    g = "vless".data ∨ g = "vmess".data := by
  simp only [tryMatchAt] at h
  repeat' split at h
  all_goals simp_all

theorem scanAux_mem (fuel : Nat) : ∀ (l g : List Char),
    g ∈ scanAux fuel l → g = "vless".data ∨ g = "vmess".data := by
  induction fuel with
  | zero => intro l g h; simp [scanAux] at h
  | succ m ih =>
    intro l g h
    match l with
    | [] => simp [scanAux] at h
    | c :: rest =>
      rw [scanAux] at h
      rcases htm : tryMatchAt (c :: rest) with _ | ⟨g', n'⟩
      · rw [htm] at h
        exact ih rest g h
      · rw [htm] at h
        simp only [List.mem_cons] at h
        rcases h with h | h
        · subst h; exact tryMatchAt_group htm
        · exact ih _ g h

theorem extract_all_mem {contents : List (List Char)} {g : List Char}
    (h : g ∈ extract_all contents) :
    g = "vless".data ∨ g = "vmess".data := by
  simp only [extract_all, List.mem_flatten, List.mem_map] at h
  obtain ⟨l, ⟨content, _, hl⟩, hgl⟩ := h
  subst hl
  exact scanAux_mem _ _ g hgl

theorem mem_insertDesc {x y : ScoredConfig} : ∀ {l : List ScoredConfig},
    y ∈ insertDesc x l ↔ y = x ∨ y ∈ l := by
  intro l
  induction l with
  | nil => simp [insertDesc]
  | cons z zs ih =>
    simp only [insertDesc]
    split
    · simp [List.mem_cons]
    · simp only [List.mem_cons, ih]
      tauto

theorem pairwise_insertDesc {x : ScoredConfig} {l : List ScoredConfig}
    (h : l.Pairwise (fun a b => b.score ≤ a.score)) :
    (insertDesc x l).Pairwise (fun a b => b.score ≤ a.score) := by
  induction l with
  | nil => simp [insertDesc]
  | cons z zs ih =>
    rw [List.pairwise_cons] at h
    obtain ⟨hz, hzs⟩ := h
    simp only [insertDesc]
    split
    · rename_i hle
      rw [List.pairwise_cons]
      refine ⟨?_, ?_⟩
      · intro y hy
        rcases List.mem_cons.mp hy with rfl | hy'
        · exact hle
        · exact le_trans (hz y hy') hle
      · rw [List.pairwise_cons]
        exact ⟨hz, hzs⟩
    · rename_i hgt
      rw [List.pairwise_cons]
      refine ⟨?_, ih hzs⟩
      intro y hy
      rcases mem_insertDesc.mp hy with rfl | hy'
      · omega
      · exact hz y hy'

theorem sortDesc_pairwise (l : List ScoredConfig) :
    (sortDesc l).Pairwise (fun a b => b.score ≤ a.score) := by
  induction l with
  | nil => simp [sortDesc]
  | cons x xs ih =>
    simp only [sortDesc]
    exact pairwise_insertDesc ih

theorem mem_sortDesc {y : ScoredConfig} : ∀ {l : List ScoredConfig},
    y ∈ sortDesc l ↔ y ∈ l := by
  intro l
  induction l with
  | nil => simp [sortDesc]
  | cons x xs ih => simp only [sortDesc, mem_insertDesc, List.mem_cons, ih]

theorem dedupe_walk_sub {x : ScoredConfig} : ∀ {l : List ScoredConfig}
    {seen : List (List Char)}, x ∈ dedupe_walk l seen → x ∈ l := by
  intro l
  induction l with
  | nil => intro seen h; simp [dedupe_walk] at h
  | cons z zs ih =>
    intro seen h
    simp only [dedupe_walk] at h
    split at h
    · exact List.mem_cons_of_mem _ (ih h)
    · rcases List.mem_cons.mp h with rfl | h'
      · exact List.mem_cons_self _ _
      · exact List.mem_cons_of_mem _ (ih h')

theorem dedupe_walk_filter_seen {i : List Char} : ∀ {l : List ScoredConfig}
    {seen : List (List Char)}, i ∈ seen →
    (dedupe_walk l seen).filter (fun y => y.id == i) = [] := by
  intro l
  induction l with
  | nil => intro seen _; simp [dedupe_walk]
  | cons z zs ih =>
    intro seen hseen
    simp only [dedupe_walk]
    split
    · exact ih hseen
    · rename_i hz
      have hzi : (z.id == i) = false := by
        simp only [beq_eq_false_iff_ne]
        intro he
        exact hz (he ▸ hseen)
      rw [List.filter_cons, hzi]
      simp only [Bool.false_eq_true, if_false]
      exact ih (List.mem_cons_of_mem _ hseen)

theorem dedupe_walk_filter {i : List Char} : ∀ {l : List ScoredConfig}
    {seen : List (List Char)}, i ∉ seen →
    (dedupe_walk l seen).filter (fun y => y.id == i)
      = (l.find? (fun y => y.id == i)).toList := by
  intro l
  induction l with
  | nil => intro seen _; simp [dedupe_walk]
  | cons z zs ih =>
    intro seen hns
    simp only [dedupe_walk]
    split
    · rename_i hzseen
      have hzi : (z.id == i) = false := by
        simp only [beq_eq_false_iff_ne]
        intro he
        exact hns (he ▸ hzseen)
      simp only [List.find?_cons, hzi]
      exact ih hns
    · rename_i hzseen
      by_cases hzi : z.id = i
      · have hp : (z.id == i) = true := by simp [hzi]
        simp only [List.find?_cons, hp]
        rw [List.filter_cons, hp]
        simp only [if_true]
        rw [dedupe_walk_filter_seen (by simp [hzi])]
        rfl
      · have hp : (z.id == i) = false := by simp [hzi]
        simp only [List.find?_cons, hp]
        rw [List.filter_cons, hp]
        simp only [Bool.false_eq_true, if_false]
        refine ih ?_
        simp only [List.mem_cons]
        rintro (rfl | h)
        · exact hzi rfl
        · exact hns h

theorem sorted_find?_max {i : List Char} : ∀ {s : List ScoredConfig}
    {x : ScoredConfig},
    s.Pairwise (fun a b => b.score ≤ a.score) →
    s.find? (fun y => y.id == i) = some x →
    ∀ y ∈ s, y.id = i → y.score ≤ x.score := by
  intro s
  induction s with
  | nil => intro x _ h; simp at h
  | cons z zs ih =>
    intro x hp hf y hy hyi
    rw [List.pairwise_cons] at hp
    obtain ⟨hz, hzs⟩ := hp
    by_cases hzi : z.id = i
    · have hpz : (z.id == i) = true := by simp [hzi]
      simp only [List.find?_cons, hpz] at hf
      have hxz : z = x := by injection hf
      subst hxz
      rcases List.mem_cons.mp hy with rfl | hy'
      · exact le_refl _
      · exact hz y hy'
    · have hpz : (z.id == i) = false := by simp [hzi]
      simp only [List.find?_cons, hpz] at hf
      rcases List.mem_cons.mp hy with rfl | hy'
      · exact absurd hyi hzi
      · exact ih hzs hf y hy' hyi

theorem foldr_max_le {k : Nat} : ∀ {ns : List Nat}, (∀ n ∈ ns, n ≤ k) →
    ns.foldr max 0 ≤ k := by
  intro ns
  induction ns with
  | nil => intro _; simp
  | cons a t ih =>
    intro h
    simp only [List.foldr_cons]
    exact max_le (h a (by simp)) (ih (fun n hn => h n (by simp [hn])))

theorem foldr_max_eq {m : Nat} : ∀ {ns : List Nat}, m ∈ ns →
    (∀ n ∈ ns, n ≤ m) → ns.foldr max 0 = m := by
  intro ns
  induction ns with
  | nil => intro h; simp at h
  | cons k t ih =>
    intro hm hall
    simp only [List.foldr_cons]
    rcases List.mem_cons.mp hm with rfl | hm'
    · exact max_eq_left (foldr_max_le (fun n hn => hall n (by simp [hn])))
    · rw [ih hm' (fun n hn => hall n (by simp [hn]))]
      exact max_eq_right (hall k (by simp))


/-- C2: the scoring function applied to
`vless://u@h:443?type=ws&security=tls&host=example.com` returns 45,
composed as base 10 + 10 (port 443) + 20 (hostname `h` neither a
dotted-quad IPv4 literal nor a free-DDNS suffix host) + 5 (`host`
query parameter present). -/
theorem score_example_ws_tls_443 :
    score_and_filter_config
      ("vless://u@h:443?type=ws&security=tls&host=example.com".data) = 45 := by
  decide

/-- C6: the evaluation function returns 0 whenever the `security` query
parameter is not exactly `tls` (including when it is absent, where the
`get` default makes it the empty string). -/
theorem reject_when_security_not_tls (c : List Char)
    (h : securityParamOf c ≠ "tls".data) :
    score_and_filter_config c = 0 := by
  have hb : (securityParamOf c == "tls".data) = false := beq_eq_false_iff_ne.mpr h
  simp [score_and_filter_config, hb]

/-- Witness for C6, at the claim's "in particular" instance: a descriptor
identical to the accepted one except for `security=none` is rejected. -/
theorem reject_when_security_not_tls_witness :
    securityParamOf ("vless://u@h:443?type=ws&security=none&host=example.com".data)
      ≠ "tls".data ∧
    score_and_filter_config
      ("vless://u@h:443?type=ws&security=none&host=example.com".data) = 0 :=
  ⟨by decide, reject_when_security_not_tls _ (by decide)⟩

/-- C7: the evaluation function returns 0 unless the `type` parameter is
`ws` or `grpc` (absent means the empty string, which is rejected); with
`type=grpc` an absent/empty `serviceName` rejects; with `type=ws` an
absent/empty `host` rejects. -/
theorem transport_rules_reject (c : List Char) :
    (¬(transportOf c = "ws".data ∨ transportOf c = "grpc".data) →
      score_and_filter_config c = 0) ∧
    (transportOf c = "grpc".data ∧ serviceNameParamOf c = [] →
      score_and_filter_config c = 0) ∧
    (transportOf c = "ws".data ∧ hostParamOf c = [] →
      score_and_filter_config c = 0) := by
  refine ⟨?_, ?_, ?_⟩
  · intro h
    have h1 : (transportOf c == "ws".data) = false :=
      beq_eq_false_iff_ne.mpr (fun he => h (Or.inl he))
    have h2 : (transportOf c == "grpc".data) = false :=
      beq_eq_false_iff_ne.mpr (fun he => h (Or.inr he))
    simp [score_and_filter_config, h1, h2]
  · rintro ⟨ht, hs⟩
    have h1 : (transportOf c == "grpc".data) = true := by simp [ht]
    have h2 : (serviceNameParamOf c).isEmpty = true := by rw [hs]; rfl
    have h3 : (transportOf c == "ws".data) = false := by
      simp only [beq_eq_false_iff_ne]
      intro he
      exact absurd (he ▸ ht) (by decide)
    simp [score_and_filter_config, h1, h2, h3]
  · rintro ⟨ht, hs⟩
    have h1 : (transportOf c == "ws".data) = true := by simp [ht]
    have h2 : (hostParamOf c).isEmpty = true := by rw [hs]; rfl
    have h3 : (transportOf c == "grpc".data) = false := by
      simp only [beq_eq_false_iff_ne]
      intro he
      exact absurd (he ▸ ht) (by decide)
    simp [score_and_filter_config, h1, h2, h3]

/-- Witness for C7: a descriptor with no `type`, one with `type=grpc` and
no `serviceName`, and one with `type=ws` and no `host` all score 0. -/
theorem transport_rules_reject_witness :
    score_and_filter_config ("vless://u@h:443?security=tls".data) = 0 ∧
    score_and_filter_config ("vless://u@h:443?security=tls&type=grpc".data) = 0 ∧
    score_and_filter_config ("vless://u@h:443?security=tls&type=ws".data) = 0 :=
  ⟨(transport_rules_reject _).1 (by decide),
   (transport_rules_reject _).2.1 ⟨by decide, by decide⟩,
   (transport_rules_reject _).2.2 ⟨by decide, by decide⟩⟩

/-- C10: the evaluation function returns 0 or one of the eight values
10, 15, 20, 25, 30, 35, 40, 45 (base 10 plus any subset of the bonuses
10, 20, 5, each applied at most once). -/
theorem score_values_bounded (c : List Char) :
    score_and_filter_config c = 0 ∨
    score_and_filter_config c ∈ [10, 15, 20, 25, 30, 35, 40, 45] := by
  unfold score_and_filter_config
  repeat' split
  all_goals first
    | exact Or.inl rfl
    | (right; decide)

/-- C9: for a descriptor containing no `@`, `config.split('@')[0]` is the
whole descriptor, so two such descriptors share a dedup identity exactly
when they are equal. -/
theorem identity_of_configs_without_at (c c' : List Char)
    (h : '@' ∉ c) (h' : '@' ∉ c') :
    server_id c = c ∧ (server_id c = server_id c' ↔ c = c') := by
  have hid : ∀ (d : List Char), '@' ∉ d → server_id d = d := by
    intro d hd
    unfold server_id
    rw [List.takeWhile_eq_self_iff]
    intro x hx
    simp only [Bool.not_eq_eq_eq_not, Bool.not_true, beq_eq_false_iff_ne]
    intro he
    exact hd (he ▸ hx)
  refine ⟨hid c h, ?_⟩
  rw [hid c h, hid c' h']

/-- Witness for C9 at two concrete `@`-free strings. -/
theorem identity_of_configs_without_at_witness :
    '@' ∉ ("vless".data) ∧ '@' ∉ ("vmess".data) ∧
    (server_id ("vless".data) = "vless".data ∧
     (server_id ("vless".data) = server_id ("vmess".data) ↔
       "vless".data = "vmess".data)) :=
  ⟨by decide, by decide,
   identity_of_configs_without_at _ _ (by decide) (by decide)⟩

/-- C1 (code bug): on text holding two descriptors concatenated with no
separator, the extraction step yields neither descriptor: `re.findall`
with the capture group `(vless|vmess)` returns the group captures, so the
result is the single scheme token `vless` (the two descriptors also form
one single maximal-run match). -/
theorem extractor_returns_scheme_token_only :
    get_configs_from_one ("vless://a@bvless://c@d".data) = ["vless".data] ∧
    ("vless://a@b".data ∉ get_configs_from_one ("vless://a@bvless://c@d".data)) ∧
    ("vless://c@d".data ∉ get_configs_from_one ("vless://a@bvless://c@d".data)) := by
  decide

/-- C3: for any input sequence of scored descriptors and any identity
occurring in it, deduplication keeps exactly one item with that identity,
and its score is the maximum score among the input items with that
identity. -/
theorem dedupe_keeps_unique_max_per_identity (l : List ScoredConfig)
    (i : List Char) (hi : i ∈ l.map (fun x => x.id)) :
    ∃ x, (dedupe l).filter (fun y => y.id == i) = [x] ∧
      x.score = maxScoreFor l i := by
  obtain ⟨z, hz, hzi⟩ := List.mem_map.mp hi
  have hzs : z ∈ sortDesc l := mem_sortDesc.mpr hz
  have hfind : ∃ x, (sortDesc l).find? (fun y => y.id == i) = some x := by
    rw [← Option.isSome_iff_exists, List.find?_isSome]
    exact ⟨z, hzs, by simp [hzi]⟩
  obtain ⟨x, hx⟩ := hfind
  have hpx := List.find?_some hx
  have hxmem : x ∈ sortDesc l := List.mem_of_find?_eq_some hx
  have hxi : x.id = i := by simpa using hpx
  refine ⟨x, ?_, ?_⟩
  · rw [show dedupe l = dedupe_walk (sortDesc l) [] from rfl,
      dedupe_walk_filter (by simp), hx]
    rfl
  · have hmax : ∀ y ∈ l, y.id = i → y.score ≤ x.score := fun y hy hyi =>
      sorted_find?_max (sortDesc_pairwise l) hx y (mem_sortDesc.mpr hy) hyi
    have hxl : x ∈ l := mem_sortDesc.mp hxmem
    refine (foldr_max_eq ?_ ?_).symm
    · exact List.mem_map.mpr ⟨x, List.mem_filter.mpr ⟨hxl, by simp [hxi]⟩, rfl⟩
    · intro n hn
      obtain ⟨y, hyf, rfl⟩ := List.mem_map.mp hn
      obtain ⟨hyl, hyi⟩ := List.mem_filter.mp hyf
      exact hmax y hyl (by simpa using hyi)

/-- Witness for C3 at the claim's instance: two items with the same
identity and scores 30 and 50; only the score-50 item survives and its
config is the one in the result. -/
theorem dedupe_keeps_unique_max_per_identity_witness :
    ("vless://u".data ∈ ([⟨"vless://u".data, 30, "cfgA".data⟩,
        ⟨"vless://u".data, 50, "cfgB".data⟩] : List ScoredConfig).map
        (fun x => x.id)) ∧
    (∃ x, (dedupe [⟨"vless://u".data, 30, "cfgA".data⟩,
        ⟨"vless://u".data, 50, "cfgB".data⟩]).filter
          (fun y => y.id == "vless://u".data) = [x] ∧
        x.score = maxScoreFor [⟨"vless://u".data, 30, "cfgA".data⟩,
          ⟨"vless://u".data, 50, "cfgB".data⟩] ("vless://u".data)) ∧
    (dedupe [⟨"vless://u".data, 30, "cfgA".data⟩,
        ⟨"vless://u".data, 50, "cfgB".data⟩]).map (fun x => x.config)
      = ["cfgB".data] :=
  ⟨by decide, dedupe_keeps_unique_max_per_identity _ _ (by decide), by decide⟩

/-- C8 counterexample: a `vmess://` descriptor is not itself extracted;
the extraction result for text consisting of exactly that descriptor is
the scheme token `vmess` alone. -/
theorem vmess_descriptor_not_extracted :
    ("vmess://abc".data ∉ get_configs_from_one ("vmess://abc".data)) ∧
    get_configs_from_one ("vmess://abc".data) = ["vmess".data] := by
  decide

/-- C8 (amended): every scored descriptor the pipeline retains has score
strictly greater than 0 (score-0 items are filtered before wrapping), and
any string not beginning with `vless://` (in particular any `vmess://`
descriptor) scores 0 and never appears in the final output. -/
theorem retained_scores_positive_and_nonvless_rejected
    (enum : List (List Char)) (c : List Char)
    (hc : startsWithL c ("vless://".data) = false) :
    (∀ x ∈ scored_configs enum, 0 < x.score) ∧
    score_and_filter_config c = 0 ∧ c ∉ final_configs enum := by
  have hinv : ∀ x ∈ scored_configs enum,
      0 < x.score ∧ x.score = score_and_filter_config x.config := by
    intro x hx
    simp only [scored_configs, List.mem_filterMap] at hx
    obtain ⟨cfg, _, heq⟩ := hx
    split at heq
    · rename_i hpos
      cases heq
      exact ⟨hpos, rfl⟩
    · exact absurd heq (by simp)
  have heval0 : score_and_filter_config c = 0 := by
    unfold score_and_filter_config
    rw [hc]
    rfl
  refine ⟨fun x hx => (hinv x hx).1, heval0, ?_⟩
  intro hmem
  simp only [final_configs, List.mem_map] at hmem
  obtain ⟨x, hxd, hxc⟩ := hmem
  have hxs : x ∈ scored_configs enum := mem_sortDesc.mp (dedupe_walk_sub hxd)
  have h1 := (hinv x hxs).1
  have h2 := (hinv x hxs).2
  rw [hxc, heval0] at h2
  omega

/-- Witness for C8: a single-source run whose content is a vmess
descriptor; the invariant holds and the descriptor is not in the output. -/
theorem retained_scores_positive_and_nonvless_rejected_witness :
    startsWithL ("vmess://x@y".data) ("vless://".data) = false ∧
    ((∀ x ∈ scored_configs ["vmess://x@y".data], 0 < x.score) ∧
     score_and_filter_config ("vmess://x@y".data) = 0 ∧
     "vmess://x@y".data ∉ final_configs ["vmess://x@y".data]) :=
  ⟨by decide, retained_scores_positive_and_nonvless_rejected _ _ (by decide)⟩

/-- C5: the pipeline applied to any two enumerations of the set of
descriptors extracted from fixed fetched contents produces identical
result lists: every extracted entry is a scheme token `vless`/`vmess`
(see C1), which scores 0, so both runs produce the empty result. -/
theorem pipeline_deterministic_under_enumeration
    (contents e1 e2 : List (List Char))
    (h1 : ∀ s ∈ e1, s ∈ extract_all contents)
    (h2 : ∀ s ∈ e2, s ∈ extract_all contents) :
    final_configs e1 = final_configs e2 := by
  have hz : ∀ (e : List (List Char)), (∀ s ∈ e, s ∈ extract_all contents) →
      final_configs e = [] := by
    intro e he
    have hsc : scored_configs e = [] := by
      simp only [scored_configs]
      rw [List.filterMap_eq_nil_iff]
      intro a ha
      rcases extract_all_mem (he a ha) with rfl | rfl
      · decide
      · decide
    rw [final_configs, dedupe, hsc]
    rfl
  rw [hz e1 h1, hz e2 h2]

/-- Witness for C5: the extraction of one concrete content, enumerated in
two different orders, yields the same (empty) result list. -/
theorem pipeline_deterministic_under_enumeration_witness :
    (∀ s ∈ extract_all ["vless://a@b vless://c@d".data],
      s ∈ extract_all ["vless://a@b vless://c@d".data]) ∧
    (∀ s ∈ (extract_all ["vless://a@b vless://c@d".data]).reverse,
      s ∈ extract_all ["vless://a@b vless://c@d".data]) ∧
    final_configs (extract_all ["vless://a@b vless://c@d".data]) =
      final_configs ((extract_all ["vless://a@b vless://c@d".data]).reverse) :=
  ⟨fun _ hs => hs, fun _ hs => List.mem_reverse.mp hs,
   pipeline_deterministic_under_enumeration _ _ _ (fun _ hs => hs)
     (fun _ hs => List.mem_reverse.mp hs)⟩

/-- C4 (amended): for every text and every removal of `j` of the padding
characters from its Base64 encoding, `decode_base64_content` recovers the
text (it re-appends exactly `(4 - len % 4) % 4` padding characters); and
whenever the decode body raises (models as `none`), the function returns
the empty string to its caller instead of propagating. -/
theorem decode_roundtrip_and_failure_empty (text : List Char) (j : Nat)
    (hj : j ≤ b64PadLen (utf8Encode text).length) :
    decode_base64_content (strippedPayload text j) = text ∧
    (∀ s, decode_base64_core s = none → decode_base64_content s = []) := by
  refine ⟨decode_base64_content_of_stripped text j hj, ?_⟩
  intro s hs
  simp [decode_base64_content, hs]

/-- Witness for C4: `hello` encodes to `aGVsbG8=`; with one `=` removed
the decoder still recovers `hello`; the invalid payload `AAAAA` makes the
decode body fail and the function return the empty string. -/
theorem decode_roundtrip_and_failure_empty_witness :
    (1 ≤ b64PadLen (utf8Encode ("hello".data)).length) ∧
    strippedPayload ("hello".data) 1 = "aGVsbG8".data ∧
    decode_base64_content ("aGVsbG8".data) = "hello".data ∧
    decode_base64_core ("AAAAA".data) = none ∧
    decode_base64_content ("AAAAA".data) = [] := by
  refine ⟨by decide, by decide, ?_, by decide, ?_⟩
  · have h := (decode_roundtrip_and_failure_empty ("hello".data) 1 (by decide)).1
    rw [show strippedPayload ("hello".data) 1 = "aGVsbG8".data by decide] at h
    exact h
  · exact (decode_roundtrip_and_failure_empty ("hello".data) 1 (by decide)).2 _
      (by decide)

/-- C4 counterexample: on the failing input `AAAAA` (whose repadded form
`AAAAA===` leaves a dangling data character, raising `binascii.Error`),
the function returns the empty string but emits no log event at all — the
source has no logging call in either branch — contradicting the claim's
"additionally signalling a recoverable-decode warning to the logging
collaborator". -/
theorem decode_failure_emits_no_warning :
    decode_base64_core ("AAAAA".data) = none ∧
    decode_base64_content ("AAAAA".data) = [] ∧
    decode_base64_content_logs ("AAAAA".data) = [] := by
  refine ⟨by decide, by decide, rfl⟩
